import Mathlib

/-!
Verification of the natural-language specification of `command_line_lint.py`
against a shallow embedding of its code.  Commands are modelled as `List Char`
(with `String` wrappers where convenient); machine text processing (Python
`str.split`, `str.strip`, `int(...)`, `difflib.SequenceMatcher`) is embedded
as executable Lean functions translated from the CPython semantics the script
relies on.  Python `float` divisions that the script compares against exact
decimal constants are modelled by exact rational/integer arithmetic, and a
computation that raises an uncaught Python exception (ZeroDivisionError,
ValueError) is modelled as `Option.none`.
-/

set_option maxRecDepth 100000

namespace CommandLineLint

/-- Python `str.split()` whitespace class (the ASCII part of it):
space, tab, newline, carriage return, vertical tab, form feed. -/
def pyIsSpace (c : Char) : Bool :=
  c = ' ' || c = '\t' || c = '\n' || c = '\r' || c = '\x0b' || c = '\x0c'

/-- Accumulator-based worker for Python `str.split()` (no separator argument):
splits on runs of whitespace and never produces empty tokens.
`acc` holds the current token, reversed. -/
def pySplitAux : List Char → List Char → List (List Char)
  | [], acc => if acc.isEmpty then [] else [acc.reverse]
  | c :: cs, acc =>
    if pyIsSpace c then
      if acc.isEmpty then pySplitAux cs [] else acc.reverse :: pySplitAux cs []
    else
      pySplitAux cs (c :: acc)

/-- Python `s.split()` on a list of characters. -/
def pySplitL (l : List Char) : List (List Char) := pySplitAux l []

/-- Python `s.split()`. -/
def pySplit (s : String) : List String := (pySplitL s.data).map String.mk

/-- Python `sep.join` for a single-space separator, on token lists. -/
def joinSpace : List (List Char) → List Char
  | [] => []
  | [t] => t
  | t :: ts => t ++ ' ' :: joinSpace ts

/-- `_standardize(cmd)` from the source: `' '.join(cmd.split())`. -/
def standardizeL (l : List Char) : List Char := joinSpace (pySplitL l)

/-- `_standardize` on `String`. -/
def standardize (s : String) : String := String.mk (standardizeL s.data)

/-- Python `s.split(sep)` for a one-character separator: keeps empty pieces,
and on the empty string returns `[""]`. -/
def pySplitSep (sep : Char) : List Char → List (List Char)
  | [] => [[]]
  | c :: cs =>
    match pySplitSep sep cs with
    | [] => [[]]   -- unreachable: pySplitSep never returns []
    | t :: ts => if c = sep then [] :: t :: ts else (c :: t) :: ts

/-- Python `str.strip()` (whitespace from both ends). -/
def pyStripL (l : List Char) : List Char :=
  ((l.dropWhile pyIsSpace).reverse.dropWhile pyIsSpace).reverse

/-- Python `str.strip()` on `String`. -/
def pyStrip (s : String) : String := String.mk (pyStripL s.data)

/-- Python `s.startswith(p)` on lists. -/
def pyStartsWith (l p : List Char) : Bool := p.isPrefixOf l

/-- Decimal value of a digit list (most significant first). -/
def digitsVal (l : List Char) : Nat :=
  l.foldl (fun acc c => 10 * acc + (c.toNat - '0'.toNat)) 0

/-- Python `int(s)` for `str` input: optional surrounding whitespace,
optional sign, then a non-empty digit string; anything else raises
`ValueError`, modelled as `none`.  (Underscore digit grouping is not
modelled; no claim depends on it.) -/
def pyInt (s : List Char) : Option Int :=
  let t := pyStripL s
  match t with
  | '+' :: ds => if ds ≠ [] && ds.all Char.isDigit then some (digitsVal ds) else none
  | '-' :: ds => if ds ≠ [] && ds.all Char.isDigit then some (-(digitsVal ds : Int)) else none
  | ds => if ds ≠ [] && ds.all Char.isDigit then some (digitsVal ds) else none

/-- Python `needle in haystack` substring test. -/
def isSubstr (needle haystack : List Char) : Bool :=
  (List.range (haystack.length + 1)).any (fun i => needle.isPrefixOf (haystack.drop i))

/-- Python `c in s` for a single character. -/
def charIn (c : Char) (l : List Char) : Bool := l.contains c

-- sanity checks on the Python-string embedding
example : pySplit "  mv  a   b " = ["mv", "a", "b"] := by decide
example : standardize "  cd    ~ " = "cd ~" := by decide
example : pySplitSep ':' "".data = ["".data] := by decide
example : (pySplitSep ':' "a:b:".data).map String.mk = ["a", "b", ""] := by decide
example : pyStrip "  #x  " = "#x" := by decide
example : pyInt "  42 ".data = some 42 := by decide
example : pyInt "abc".data = none := by decide
example : pyInt "-7".data = some (-7) := by decide
example : pyInt "".data = none := by decide
example : isSubstr "ll".data "hello".data = true := by decide
example : isSubstr "lo!".data "hello".data = false := by decide

/-! ### Environment and configuration

The process environment is a read-only map; `os.environ.get(k, d)` is
`envGet`.  Subprocess results (the dumped alias list) and filesystem facts
(which paths are regular files) enter the model as explicit configuration
fields, since the script only ever inspects their values. -/

/-- A read-only snapshot of `os.environ`. -/
def Env : Type := String → Option String

/-- `os.environ.get(k, d)`. -/
def envGet (env : Env) (k : String) (d : String) : String := (env k).getD d

/-- `os.environ.get(k)` as an option. -/
def envGetOpt (env : Env) (k : String) : Option String := env k

/-! ### History loader (`main`, lines 327-331)

`commands = [cmd.strip() for cmd in stream.readlines() if cmd.strip() and
not cmd.startswith('#')]`.  The filter's `startswith` runs on the *raw*
line, while the kept value is the stripped line.  Lines are modelled
without their trailing newline (neither `strip` nor `startswith('#')` can
see it). -/

def loadHistory (lines : List String) : List String :=
  (lines.filter (fun l => !(pyStrip l).data.isEmpty && !pyStartsWith l.data ['#'])).map pyStrip

/-- The spec's description of the loader ("trim whitespace, and keep only
non-empty lines that do not start with a comment marker"): trim first, then
filter on the trimmed line.  Used only to compare against `loadHistory`. -/
def loadHistorySpec (lines : List String) : List String :=
  (lines.map pyStrip).filter (fun l => !l.data.isEmpty && !pyStartsWith l.data ['#'])

/-! ### `_is_in_histignore` (lines 308-309) -/

/-- `_standardize(cmd) in os.environ.get('HISTIGNORE', '').split(':')`. -/
def isInHistignore (env : Env) (cmd : String) : Bool :=
  (pySplitSep ':' (envGet env "HISTIGNORE" "").data).contains (standardizeL cmd.data)

/-! ### Per-command lints -/

/-- `_lint_command_alias` (lines 160-167), firing decision.  `aliasDump` is
the captured output of `shell -i -c alias` (the script tests raw substring
containment of the command in that dump).  Python's float test
`total / count > 20` is modelled exactly as `20 * count < total`. -/
def lintCommandAlias (aliasDump : List Char) (cmd : List Char) (count total : Nat) : Bool :=
  if isSubstr cmd aliasDump || count < 2 || 20 * count < total || !charIn ' ' cmd then
    false
  else
    true

/-- `_lint_command_ignore` (lines 170-178), firing decision (returns `true`
only in the bash/sh branch). -/
def lintCommandIgnore (shell : String) (cmd : List Char) (count total : Nat) : Bool :=
  if 4 ≤ cmd.length || count < 2 || 20 * count < total then
    false
  else if shell = "bash" || shell = "sh" then
    true
  else
    false

/-- `_lint_command_cd_home` (lines 181-186): fires iff the standardized
command is one of the three literal idioms. -/
def lintCommandCdHome (cmd : List Char) : Bool :=
  let s := standardizeL cmd
  s = "cd ~".data || s = "cd ~/".data || s = "cd $HOME".data

/-! ### Counters and `most_common`

`collections.Counter` iterates keys in first-insertion order;
`most_common(n)` sorts by count descending, stably (ties keep insertion
order).  Modelled by first-occurrence key listing plus a stable insertion
sort by descending count. -/

/-- Distinct elements in first-occurrence order. -/
def firstOccKeys (l : List String) : List String :=
  l.foldl (fun acc x => if acc.contains x then acc else acc ++ [x]) []

/-- Stable insertion into a list sorted by descending count. -/
def insertDesc (x : String × Nat) : List (String × Nat) → List (String × Nat)
  | [] => [x]
  | y :: ys => if y.2 ≤ x.2 then x :: y :: ys else y :: insertDesc x ys

/-- `Counter(l).most_common(n)`. -/
def mostCommon (l : List String) (n : Nat) : List (String × Nat) :=
  (((firstOccKeys l).map (fun k => (k, l.count k))).foldr insertDesc []).take n

/-! ### Integer division as evaluated by the script

`report_commands_with_arguments` computes `int(sum(...) / len(commands))`
and `_print_command_stats` computes `100 * count / total`; in Python 3 both
are float divisions that raise `ZeroDivisionError` when the denominator is
zero.  A division is therefore modelled as `none` at denominator 0 and as
exact integer arithmetic otherwise (`int()` truncates toward zero). -/

def pyDivTrunc (a : Int) (b : Nat) : Option Int :=
  if b = 0 then none else some (Int.tdiv a b)

/-! ### Frequency reports (`report_favorites`, `report_commands_with_arguments`)

Outputs are modelled structurally: the list of `(command, count, total)`
stats entries each report prints (formatting and colors carry no extra
information), and `none` models an uncaught exception escaping the
report. -/

/-- `report_favorites` (lines 66-71): prefix counts over commands that
contain a space; each printed stats row divides by `len(commands)`.
`cmd.split()[0]` is modelled with `headD`: for any string that contains a
space and at least one non-space character (every loaded command is
stripped and non-empty) the token list is non-empty, so the default is
never taken. -/
def reportFavorites (commands : List String) : Option (List (String × Nat × Nat)) :=
  let prefixes := (commands.filter (fun c => charIn ' ' c.data)).map
    (fun c => ((pySplitL c.data).headD []).asString)
  (mostCommon prefixes 5).foldr
    (fun (p, cnt) acc =>
      match acc, pyDivTrunc (100 * cnt) commands.length with
      | some rows, some _ => some ((p, cnt, commands.length) :: rows)
      | _, _ => none)
    (some [])

/-- Number of whitespace tokens of a command, as `len(cmd.split())`. -/
def numTokens (cmd : String) : Nat := (pySplitL cmd.data).length

/-- The trailing tip of `report_commands_with_arguments` (lines 85-87):
`int(sum(len(cmd) for cmd in commands) / len(commands))` and
`int(sum(len(cmd.split()) - 1 for cmd in commands) / len(commands))`.
Raises `ZeroDivisionError` (`none`) when `commands` is empty. -/
def averageTip (commands : List String) : Option (Int × Int) := do
  let lenSum : Int := (commands.map (fun c => (c.data.length : Int))).foldr (· + ·) 0
  let argSum : Int := (commands.map (fun c => (numTokens c : Int) - 1)).foldr (· + ·) 0
  let a ← pyDivTrunc lenSum commands.length
  let b ← pyDivTrunc argSum commands.length
  pure (a, b)

/-- `report_commands_with_arguments` (lines 74-87): stats rows for the top
10 full commands (each row divides by the total), the per-command lints
gated by `_is_in_histignore`, then the average tip.  Result: the stats rows
plus the two averages, or `none` if a division by zero occurs. -/
def reportCommandsWithArguments (env : Env) (aliasDump : List Char) (shell : String)
    (commands : List String) : Option (List (String × Nat × Nat) × Int × Int) := do
  let rows ← (mostCommon commands 10).foldr
    (fun (c, cnt) acc =>
      match acc, pyDivTrunc (100 * cnt) commands.length with
      | some rows, some _ =>
        -- the lints print tips but raise nothing relevant here
        let _ := if !isInHistignore env c then
          (lintCommandAlias aliasDump c.data cnt commands.length,
           lintCommandIgnore shell c.data cnt commands.length)
        else (false, false)
        some ((c, cnt, commands.length) :: rows)
      | _, _ => none)
    (some [])
  let (a, b) ← averageTip commands
  pure (rows, a, b)

/-! ### Size lints with `int()` parses (`_lint_histsize`,
`_lint_bash_histfilesize`)

Each returns the list of tips it prints, or `none` when `int()` raises
`ValueError` on a malformed value. -/

/-- `_lint_histsize` (lines 275-279). -/
def lintHistsize (env : Env) : Option (List String) := do
  let v ← pyInt (envGet env "HISTSIZE" "0").data
  pure (if v < 5000 then ["Increase/set HISTSIZE to retain history"] else [])

/-- `_lint_bash_histfilesize` (lines 229-236). -/
def lintBashHistfilesize (env : Env) (shell : String) : Option (List String) :=
  if shell = "bash" || shell = "sh" then do
    let fs ← pyInt (envGet env "HISTFILESIZE" "0").data
    let t1 := if fs < 5000 then ["Increase/set HISTFILESIZE to retain more history"] else []
    let hs ← pyInt (envGet env "HISTSIZE" "0").data
    pure (t1 ++ if fs < hs then ["HISTFILESIZE should be larger than HISTSIZE"] else [])
  else
    pure []

/-! ### `_history_file` (lines 282-297) and `_shell` (lines 300-301) -/

/-- `os.path.join(home, p)` for the cases the script exercises: an absolute
second component replaces the first; otherwise the components are joined
with exactly one `/`. -/
def pyPathJoin (home p : String) : String :=
  if pyStartsWith p.data ['/'] then p
  else if home = "" then p
  else if home.data.getLast? = some '/' then home ++ p
  else home ++ "/" ++ p

/-- Configuration of one invocation: the command-line arguments after the
program name, the environment, the home directory, and which paths are
regular files. -/
structure Cfg where
  args : List String
  env : Env
  home : String
  isFile : String → Bool

/-- `_shell()`: `os.path.basename(os.environ.get('SHELL'))`; with `SHELL`
unset, `os.path.basename(None)` raises `TypeError` (`none`).  Basename is
the part after the last `/`. -/
def shellName (env : Env) : Option String :=
  (envGetOpt env "SHELL").map (fun s =>
    ((pySplitSep '/' s.data).getLastD []).asString)

/-- Outcome of `_history_file`: an uncaught exception, a `sys.exit` with
the warnings printed before it and the exit status, or the resolved path. -/
inductive HFOutcome where
  | crash : HFOutcome
  | exited (warnings : List String) (status : Nat) : HFOutcome
  | ok (path : String) : HFOutcome
deriving DecidableEq, Repr

/-- Path resolution precedence of `_history_file` (lines 283-293):
explicit argument, truthy `HISTFILE` joined to home, the bash default,
the generic fallback.  `none` models the `TypeError` from `_shell()` when
`SHELL` is unset and the shell branch is reached. -/
def resolveHistoryPath (cfg : Cfg) : Option String :=
  match cfg.args with
  | p :: _ => some p
  | [] =>
    match envGetOpt cfg.env "HISTFILE" with
    | some hf =>
      if hf ≠ "" then some (pyPathJoin cfg.home hf)
      else
        match shellName cfg.env with
        | none => none
        | some sh =>
          if sh = "bash" then some (pyPathJoin cfg.home ".bash_history")
          else some (pyPathJoin cfg.home ".history")
    | none =>
      match shellName cfg.env with
      | none => none
      | some sh =>
        if sh = "bash" then some (pyPathJoin cfg.home ".bash_history")
        else some (pyPathJoin cfg.home ".history")

/-- The single warning line `_warn` prints for a missing history file.
Color escapes are elided (they are empty under `NO_COLOR`), and the single
quotes Python places around the path are elided from the model. -/
def missingWarning (p : String) : String :=
  "WARNING: History file " ++ p ++ " not found."

/-- `_history_file` (lines 282-297). -/
def historyFile (cfg : Cfg) : HFOutcome :=
  match resolveHistoryPath cfg with
  | none => .crash
  | some p => if cfg.isFile p then .ok p else .exited [missingWarning p] 1

/-! ### `report_shellcheck` deduplication loop (lines 117-128)

The loop state is the set of already-seen diagnostic codes; paragraphs are
the `'\n\n'`-separated blocks of the linter's output.  Codes are the
4-digit groups of the pattern `SC([0-9]{4}):`. -/

/-- `re.findall(r"SC([0-9]{4}):", s)`: non-overlapping left-to-right scan;
on a match the scan resumes after the matched text. -/
def scanCodes : List Char → List String
  | 'S' :: 'C' :: d1 :: d2 :: d3 :: d4 :: ':' :: rest =>
    if d1.isDigit && d2.isDigit && d3.isDigit && d4.isDigit then
      String.mk [d1, d2, d3, d4] :: scanCodes rest
    else
      scanCodes ('C' :: d1 :: d2 :: d3 :: d4 :: ':' :: rest)
  | _ :: rest => scanCodes rest
  | [] => []

/-- `old_errors.union(new_errors)` with the set modelled as a duplicate-free
list (membership is all the loop ever queries). -/
def seenUnion (seen : List String) (ns : List String) : List String :=
  ns.foldl (fun acc c => if acc.contains c then acc else acc ++ [c]) seen

/-- One run of the dedup loop: returns the printed paragraphs and the final
seen set.  Per paragraph: `new_errors = [cc for cc in errors if cc not in
old_errors][:top_n]`; if non-empty, mark those (and only those) seen and
print the paragraph. -/
def scProcess (topN : Nat) (seen : List String) : List String → List String × List String
  | [] => ([], seen)
  | p :: ps =>
    let newErrs := ((scanCodes p.data).filter (fun c => !seen.contains c)).take topN
    if newErrs.isEmpty then
      scProcess topN seen ps
    else
      let r := scProcess topN (seenUnion seen newErrs) ps
      (p :: r.1, r.2)

-- sanity checks
example : scanCodes "SC2086: foo SC2086: SC123: SC12345:".data = ["2086", "2086"] := by decide
example : resolveHistoryPath ⟨[], (fun k => if k = "SHELL" then some "/bin/bash" else none),
    "/home/u", fun _ => false⟩ = some "/home/u/.bash_history" := by decide
example : resolveHistoryPath ⟨[], (fun k => if k = "HISTFILE" then some "/x/h" else none),
    "/home/u", fun _ => false⟩ = some "/x/h" := by decide
example : historyFile ⟨["/nope"], (fun _ => none), "/home/u", fun _ => false⟩
    = .exited ["WARNING: History file /nope not found."] 1 := by decide
example : (scProcess 10 [] ["SC2086: x", "SC2086: y"]).1 = ["SC2086: x"] := by decide

/-! ### `difflib.SequenceMatcher(a=arg1, b=arg2).find_longest_match(0, len(arg1), 0, len(arg2))`

`SequenceMatcher` is constructed with `isjunk=None` and the default
`autojunk=True`: when `len(b) >= 200`, every element of `b` occurring more
than `len(b) // 100 + 1` times is "popular" and excluded from the match
dictionary `b2j`, so the core phase only finds blocks whose `b`-side
characters are all non-popular.  The core phase returns the longest such
block, ties resolved to the earliest start in `a` then in `b` (and
`(0, 0, 0)` if there is none).  The best block is then extended on both
ends while characters are equal (`bjunk` is empty for `isjunk=None`, so
the junk test in the extension loops never blocks). -/

/-- The autojunk "popular" characters of `b`. -/
def popularChars (b : List Char) : List Char :=
  if b.length < 200 then []
  else b.dedup.filter (fun c => b.length / 100 + 1 < b.count c)

/-- Character-level popularity test. -/
def isPopular (b : List Char) (c : Char) : Bool := (popularChars b).contains c

/-- Length of the maximal block of pairwise-equal characters at the heads
of the two suffixes, with the `b`-side character required non-popular. -/
def matchRun (pop : Char → Bool) : List Char → List Char → Nat
  | x :: xs, y :: ys => if x = y && !pop y then matchRun pop xs ys + 1 else 0
  | _, _ => 0

/-- `matchRun` with no junk: the plain common-prefix length of two suffixes. -/
def plainRun : List Char → List Char → Nat := matchRun (fun _ => false)

/-- Inner loop of the core phase: scan the suffixes of `b` (cursor `j`),
update the best block `(bi, bj, bk)` on a strictly longer junk-free run. -/
def innerBest (pop : Char → Bool) (sa : List Char) (i : Nat) :
    List Char → Nat → Nat → Nat → Nat → Nat × Nat × Nat
  | [], _, bi, bj, bk => (bi, bj, bk)
  | c :: rest, j, bi, bj, bk =>
    if bk < matchRun pop sa (c :: rest) then
      innerBest pop sa i rest (j + 1) i j (matchRun pop sa (c :: rest))
    else
      innerBest pop sa i rest (j + 1) bi bj bk

/-- Outer loop of the core phase: scan the suffixes of `a` (cursor `i`). -/
def outerBest (pop : Char → Bool) (b : List Char) :
    List Char → Nat → Nat → Nat → Nat → Nat × Nat × Nat
  | [], _, bi, bj, bk => (bi, bj, bk)
  | c :: rest, i, bi, bj, bk =>
    let r := innerBest pop (c :: rest) i b 0 bi bj bk
    outerBest pop b rest (i + 1) r.1 r.2.1 r.2.2

/-- Core phase of `find_longest_match`: the longest junk-free block,
earliest in `a` then in `b`; `(0, 0, 0)` if none. -/
def coreBest (a b : List Char) (pop : Char → Bool) : Nat × Nat × Nat :=
  outerBest pop b a 0 0 0 0

/-- The left extension loop: walk back while the preceding characters are
equal (the junk test is vacuous for `isjunk=None`). -/
def extendLeft (a b : List Char) : Nat × Nat × Nat → Nat × Nat × Nat
  | (i, j, k) =>
    let m := plainRun ((a.take i).reverse) ((b.take j).reverse)
    (i - m, j - m, k + m)

/-- The right extension loop. -/
def extendRight (a b : List Char) : Nat × Nat × Nat → Nat × Nat × Nat
  | (i, j, k) => (i, j, k + plainRun (a.drop (i + k)) (b.drop (j + k)))

/-- `find_longest_match` over the full ranges, as the script calls it. -/
def findLongestMatch (a b : List Char) : Nat × Nat × Nat :=
  extendRight a b (extendLeft a b (coreBest a b (isPopular b)))

/-- Length of a longest common contiguous substring of `a` and `b`
(the specification-level notion the claim about `_lint_command_rename`
speaks of). -/
def lcsLen (a b : List Char) : Nat :=
  (List.range (a.length + 1)).foldl
    (fun m i =>
      (List.range (b.length + 1)).foldl
        (fun m' j => max m' (plainRun (a.drop i) (b.drop j))) m)
    0

/-- The rewritten command `_lint_command_rename` builds:
`arg1[a:a+size] ++ "{" ++ arg1[a+size:] ++ "," ++ arg2[b+size:] ++ "}"`. -/
def renameNewCmd (a1 a2 : List Char) (m : Nat × Nat × Nat) : List Char :=
  (a1.drop m.1).take m.2.2 ++
    '{' :: (a1.drop (m.1 + m.2.2) ++ ',' :: (a2.drop (m.2.1 + m.2.2) ++ ['}']))

/-- `_lint_command_rename` (lines 189-208), firing decision.  The float
test `float(len(new_cmd)) / len(cmd) <= 0.80` is modelled exactly as
`5 * len(new_cmd) <= 4 * len(cmd)`. -/
def lintCommandRename (cmd : List Char) : Bool :=
  match pySplitL cmd with
  | [t0, a1, a2] =>
    if t0 = "mv".data || t0 = "cp".data then
      if (findLongestMatch a1 a2).1 = 0 && (findLongestMatch a1 a2).2.1 = 0 then
        decide (5 * (renameNewCmd a1 a2 (findLongestMatch a1 a2)).length ≤ 4 * cmd.length)
      else false
    else false
  | _ => false

-- sanity checks against difflib's documented behavior
example : findLongestMatch "foo.tar.gz".data "foo.tar.gz.bak".data = (0, 0, 10) := by decide
example : findLongestMatch "ab".data "cd".data = (0, 0, 0) := by decide
example : lintCommandRename "mv foo.tar.gz foo.tar.gz.bak".data = true := by decide
example : lintCommandRename "mv aaa bbb".data = false := by decide
example : lintCommandRename "cp x yx".data = false := by decide

/-! ### Concrete inputs used by the claim theorems

`c3arg2` has exactly 200 characters, so difflib's autojunk fires: `p`, `z`
and `f` are popular in it, the core phase finds no junk-free block, and the
extension recovers only the 68-character shared prefix, while the longest
common contiguous substring is the 69-character `z`-run at offset 69 of
both arguments. -/

def c3arg1 : List Char := List.replicate 68 'p' ++ '#' :: List.replicate 69 'z'

def c3arg2 : List Char :=
  List.replicate 68 'p' ++ '!' :: (List.replicate 69 'z' ++ List.replicate 62 'f')

def c3cmd : List Char := 'm' :: 'v' :: ' ' :: (c3arg1 ++ ' ' :: c3arg2)

/-- An invocation with an explicit path argument pointing nowhere. -/
def c2cfg : Cfg := ⟨["/nope"], fun _ => none, "/home/u", fun _ => false⟩

/-- An environment with a malformed `HISTSIZE`. -/
def c7env : Env := fun k => if k = "HISTSIZE" then some "abc" else none

/-- An environment with a malformed `HISTFILESIZE`. -/
def c7envB : Env := fun k => if k = "HISTFILESIZE" then some "12a" else none

/-- A shellcheck paragraph carrying 11 distinct diagnostic codes. -/
def c4para1 : String :=
  "SC3001: SC3002: SC3003: SC3004: SC3005: SC3006: SC3007: SC3008: SC3009: SC3010: SC3011:"

/-- A shellcheck paragraph carrying only the 11th code of `c4para1`. -/
def c4para2 : String := "only SC3011: here"

/-- A valid matching block of size `t.2.2` at positions `(t.1, t.2.1)`. -/
def ValidBlock (a b : List Char) (t : Nat × Nat × Nat) : Prop :=
  t.1 + t.2.2 ≤ a.length ∧ t.2.1 + t.2.2 ≤ b.length ∧
    (a.drop t.1).take t.2.2 = (b.drop t.2.1).take t.2.2

/-! ### Properties of the match machinery -/

theorem matchRun_nil_left (pop : Char → Bool) (ys : List Char) : matchRun pop [] ys = 0 := by
  cases ys <;> rfl

theorem matchRun_nil_right (pop : Char → Bool) (xs : List Char) : matchRun pop xs [] = 0 := by
  cases xs <;> rfl

theorem matchRun_le_left (pop : Char → Bool) :
    ∀ (xs ys : List Char), matchRun pop xs ys ≤ xs.length
  | [], ys => by simp [matchRun_nil_left]
  | _ :: _, [] => by simp [matchRun_nil_right]
  | x :: xs, y :: ys => by
    simp only [matchRun]
    split
    · exact Nat.succ_le_succ (matchRun_le_left pop xs ys)
    · exact Nat.zero_le _

theorem matchRun_le_right (pop : Char → Bool) :
    ∀ (xs ys : List Char), matchRun pop xs ys ≤ ys.length
  | [], ys => by simp [matchRun_nil_left]
  | _ :: _, [] => by simp [matchRun_nil_right]
  | x :: xs, y :: ys => by
    simp only [matchRun]
    split
    · exact Nat.succ_le_succ (matchRun_le_right pop xs ys)
    · exact Nat.zero_le _

theorem matchRun_take_eq (pop : Char → Bool) :
    ∀ (xs ys : List Char),
      xs.take (matchRun pop xs ys) = ys.take (matchRun pop xs ys)
  | [], ys => by simp [matchRun_nil_left]
  | _ :: _, [] => by simp [matchRun_nil_right]
  | x :: xs, y :: ys => by
    simp only [matchRun]
    split
    · next hxy =>
      have hx : x = y := by
        have := hxy
        simp only [Bool.and_eq_true, decide_eq_true_eq] at this
        exact this.1
      simp [List.take_succ_cons, hx, matchRun_take_eq pop xs ys]
    · simp

theorem plainRun_eq_matchRun (xs ys : List Char) :
    plainRun xs ys = matchRun (fun _ => false) xs ys := rfl

theorem plainRun_le_left (xs ys : List Char) : plainRun xs ys ≤ xs.length :=
  matchRun_le_left (fun _ => false) xs ys

theorem plainRun_le_right (xs ys : List Char) : plainRun xs ys ≤ ys.length :=
  matchRun_le_right (fun _ => false) xs ys

theorem plainRun_take_eq (xs ys : List Char) :
    xs.take (plainRun xs ys) = ys.take (plainRun xs ys) :=
  matchRun_take_eq (fun _ => false) xs ys

theorem plainRun_cons (x y : Char) (xs ys : List Char) :
    plainRun (x :: xs) (y :: ys) = if x = y then plainRun xs ys + 1 else 0 := by
  simp only [plainRun, matchRun, Bool.not_false, Bool.and_true]
  by_cases h : x = y <;> simp [h]

theorem plainRun_stop :
    ∀ (xs ys : List Char),
      plainRun (xs.drop (plainRun xs ys)) (ys.drop (plainRun xs ys)) = 0
  | [], ys => by simp [plainRun, matchRun_nil_left]
  | _ :: _, [] => by simp [plainRun, matchRun_nil_right]
  | x :: xs, y :: ys => by
    by_cases h : x = y
    · rw [plainRun_cons, if_pos h, List.drop_succ_cons, List.drop_succ_cons]
      exact plainRun_stop xs ys
    · rw [plainRun_cons, if_neg h, List.drop_zero, List.drop_zero,
        plainRun_cons, if_neg h]

theorem plainRun_add_of_take_eq :
    ∀ (n : Nat) (xs ys : List Char), n ≤ xs.length → n ≤ ys.length →
      xs.take n = ys.take n →
      plainRun xs ys = n + plainRun (xs.drop n) (ys.drop n)
  | 0, xs, ys, _, _, _ => by simp
  | n + 1, [], ys, hx, _, _ => by simp at hx
  | n + 1, _ :: _, [], _, hy, _ => by simp at hy
  | n + 1, x :: xs, y :: ys, hx, hy, heq => by
    simp only [List.take_succ_cons, List.cons.injEq] at heq
    rw [plainRun_cons, if_pos heq.1, List.drop_succ_cons, List.drop_succ_cons,
      plainRun_add_of_take_eq n xs ys (Nat.le_of_succ_le_succ hx)
        (Nat.le_of_succ_le_succ hy) heq.2]
    omega

/-! ### Generic bounds for `foldl` with an inflationary step (for `lcsLen`) -/

theorem foldl_step_le {s : Nat → Nat → Nat} (hs : ∀ m x, m ≤ s m x) :
    ∀ (l : List Nat) (init : Nat), init ≤ l.foldl s init
  | [], _ => Nat.le_refl _
  | x :: xs, init => Nat.le_trans (hs init x) (foldl_step_le hs xs (s init x))

theorem le_foldl_of_mem {s : Nat → Nat → Nat} (hs : ∀ m x, m ≤ s m x) {T x : Nat}
    (hx : ∀ m, T ≤ s m x) :
    ∀ (l : List Nat) (init : Nat), x ∈ l → T ≤ l.foldl s init
  | y :: ys, init, hmem => by
    rcases List.mem_cons.mp hmem with h | h
    · subst h
      exact Nat.le_trans (hx init) (foldl_step_le hs ys (s init x))
    · exact le_foldl_of_mem hs hx ys (s init y) h

theorem foldl_le_of_step {s : Nat → Nat → Nat} {M : Nat}
    (hstep : ∀ m x, m ≤ M → s m x ≤ M) :
    ∀ (l : List Nat) (init : Nat), init ≤ M → l.foldl s init ≤ M
  | [], _, h => h
  | x :: xs, init, h => foldl_le_of_step hstep xs (s init x) (hstep init x h)

theorem lcsLen_ge (a b : List Char) {i j : Nat} (hi : i ≤ a.length) (hj : j ≤ b.length) :
    plainRun (a.drop i) (b.drop j) ≤ lcsLen a b := by
  unfold lcsLen
  refine le_foldl_of_mem (x := i) ?_ ?_ _ 0 (List.mem_range.mpr (by omega))
  · intro m x
    exact foldl_step_le (fun m' y => Nat.le_max_left _ _) _ m
  · intro m
    refine le_foldl_of_mem (x := j) ?_ ?_ _ m (List.mem_range.mpr (by omega))
    · intro m' y
      exact Nat.le_max_left _ _
    · intro m'
      exact Nat.le_max_right _ _

theorem lcsLen_le_of (a b : List Char) {M : Nat}
    (h : ∀ i j, plainRun (a.drop i) (b.drop j) ≤ M) : lcsLen a b ≤ M := by
  unfold lcsLen
  refine foldl_le_of_step (fun m i hm => ?_) _ 0 (Nat.zero_le _)
  exact foldl_le_of_step (fun m' j hm' => Nat.max_le.mpr ⟨hm', h i j⟩) _ m hm

theorem plainRun_le_lcsLen (a b : List Char) : plainRun a b ≤ lcsLen a b := by
  have := lcsLen_ge a b (i := 0) (j := 0) (Nat.zero_le _) (Nat.zero_le _)
  simpa using this

/-! ### Invariants of the core-phase loops -/

theorem validBlock_zero (a b : List Char) : ValidBlock a b (0, 0, 0) := by
  refine ⟨by simp, by simp, by simp⟩

theorem validBlock_matchRun (pop : Char → Bool) (a b : List Char) {i j : Nat}
    (hi : i ≤ a.length) (hj : j ≤ b.length) :
    ValidBlock a b (i, j, matchRun pop (a.drop i) (b.drop j)) := by
  unfold ValidBlock
  dsimp only
  refine ⟨?_, ?_, matchRun_take_eq pop _ _⟩
  · have h := matchRun_le_left pop (a.drop i) (b.drop j)
    rw [List.length_drop] at h
    omega
  · have h := matchRun_le_right pop (a.drop i) (b.drop j)
    rw [List.length_drop] at h
    omega

theorem innerBest_ge (pop : Char → Bool) (sa : List Char) (i : Nat) :
    ∀ (sb : List Char) (j bi bj bk : Nat),
      bk ≤ (innerBest pop sa i sb j bi bj bk).2.2
  | [], _, _, _, _ => Nat.le_refl _
  | c :: rest, j, bi, bj, bk => by
    simp only [innerBest]
    split
    · next hlt =>
      exact Nat.le_trans (Nat.le_of_lt hlt) (innerBest_ge pop sa i rest (j + 1) _ _ _)
    · exact innerBest_ge pop sa i rest (j + 1) _ _ _

theorem innerBest_max (pop : Char → Bool) (sa : List Char) (i : Nat) :
    ∀ (sb : List Char) (j bi bj bk d : Nat),
      matchRun pop sa (sb.drop d) ≤ (innerBest pop sa i sb j bi bj bk).2.2
  | [], _, _, _, bk, d => by
    simp [matchRun_nil_right]
  | c :: rest, j, bi, bj, bk, 0 => by
    simp only [List.drop_zero, innerBest]
    split
    · exact innerBest_ge pop sa i rest (j + 1) _ _ _
    · next hnlt =>
      exact Nat.le_trans (Nat.le_of_not_lt hnlt) (innerBest_ge pop sa i rest (j + 1) _ _ _)
  | c :: rest, j, bi, bj, bk, d + 1 => by
    simp only [List.drop_succ_cons, innerBest]
    split
    · exact innerBest_max pop sa i rest (j + 1) _ _ _ d
    · exact innerBest_max pop sa i rest (j + 1) _ _ _ d

theorem innerBest_valid (pop : Char → Bool) (a b : List Char) (i : Nat) (hi : i ≤ a.length) :
    ∀ (sb : List Char) (j bi bj bk : Nat), sb = b.drop j → j ≤ b.length →
      ValidBlock a b (bi, bj, bk) →
      ValidBlock a b (innerBest pop (a.drop i) i sb j bi bj bk)
  | [], _, _, _, _, _, _, hv => hv
  | c :: rest, j, bi, bj, bk, hsb, hj, hv => by
    have hjlt : j < b.length := by
      have := congrArg List.length hsb
      simp [List.length_drop] at this
      omega
    have hrest : rest = b.drop (j + 1) := by
      have : (c :: rest).drop 1 = (b.drop j).drop 1 := by rw [hsb]
      simpa [List.drop_drop] using this
    simp only [innerBest]
    split
    · exact innerBest_valid pop a b i hi rest (j + 1) _ _ _ hrest (by omega)
        (by rw [hsb]; exact validBlock_matchRun pop a b hi (Nat.le_of_lt hjlt))
    · exact innerBest_valid pop a b i hi rest (j + 1) _ _ _ hrest (by omega) hv

theorem outerBest_ge (pop : Char → Bool) (b : List Char) :
    ∀ (sa : List Char) (i bi bj bk : Nat),
      bk ≤ (outerBest pop b sa i bi bj bk).2.2
  | [], _, _, _, _ => Nat.le_refl _
  | c :: rest, i, bi, bj, bk => by
    simp only [outerBest]
    exact Nat.le_trans (innerBest_ge pop (c :: rest) i b 0 bi bj bk)
      (outerBest_ge pop b rest (i + 1) _ _ _)

theorem outerBest_max (pop : Char → Bool) (b : List Char) :
    ∀ (sa : List Char) (i bi bj bk d j' : Nat),
      matchRun pop (sa.drop d) (b.drop j') ≤ (outerBest pop b sa i bi bj bk).2.2
  | [], _, _, _, _, d, j' => by
    simp [matchRun_nil_left]
  | c :: rest, i, bi, bj, bk, 0, j' => by
    simp only [List.drop_zero, outerBest]
    exact Nat.le_trans (innerBest_max pop (c :: rest) i b 0 bi bj bk j')
      (outerBest_ge pop b rest (i + 1) _ _ _)
  | c :: rest, i, bi, bj, bk, d + 1, j' => by
    simp only [List.drop_succ_cons, outerBest]
    exact outerBest_max pop b rest (i + 1) _ _ _ d j'

theorem outerBest_valid (pop : Char → Bool) (a b : List Char) :
    ∀ (sa : List Char) (i bi bj bk : Nat), sa = a.drop i → i ≤ a.length →
      ValidBlock a b (bi, bj, bk) →
      ValidBlock a b (outerBest pop b sa i bi bj bk)
  | [], _, _, _, _, _, _, hv => hv
  | c :: rest, i, bi, bj, bk, hsa, hi, hv => by
    have hilt : i < a.length := by
      have := congrArg List.length hsa
      simp [List.length_drop] at this
      omega
    have hrest : rest = a.drop (i + 1) := by
      have : (c :: rest).drop 1 = (a.drop i).drop 1 := by rw [hsa]
      simpa [List.drop_drop] using this
    simp only [outerBest]
    have hinner : ValidBlock a b (innerBest pop (a.drop i) i b 0 bi bj bk) := by
      exact innerBest_valid pop a b i (Nat.le_of_lt hilt) b 0 bi bj bk
        (by simp) (Nat.zero_le _) hv
    rw [hsa]
    exact outerBest_valid pop a b rest (i + 1) _ _ _ hrest (by omega) hinner

theorem coreBest_valid (a b : List Char) (pop : Char → Bool) :
    ValidBlock a b (coreBest a b pop) :=
  outerBest_valid pop a b a 0 0 0 0 (by simp) (Nat.zero_le _) (validBlock_zero a b)

theorem coreBest_max (a b : List Char) (pop : Char → Bool) (i j : Nat) :
    matchRun pop (a.drop i) (b.drop j) ≤ (coreBest a b pop).2.2 :=
  outerBest_max pop b a 0 0 0 0 i j

/-! ### The extension phases preserve block validity -/

theorem extendLeft_spec (a b : List Char) (i j k : Nat) (h : ValidBlock a b (i, j, k)) :
    ValidBlock a b (extendLeft a b (i, j, k)) ∧ k ≤ (extendLeft a b (i, j, k)).2.2 := by
  have h1 : i + k ≤ a.length := h.1
  have h2 : j + k ≤ b.length := h.2.1
  have h3 : (a.drop i).take k = (b.drop j).take k := h.2.2
  have hi : i ≤ a.length := by omega
  have hj : j ≤ b.length := by omega
  set m := plainRun ((a.take i).reverse) ((b.take j).reverse) with hmdef
  have hext : extendLeft a b (i, j, k) = (i - m, j - m, k + m) := rfl
  have hmi : m ≤ i := by
    have := plainRun_le_left ((a.take i).reverse) ((b.take j).reverse)
    rw [← hmdef] at this
    simp only [List.length_reverse, List.length_take] at this
    omega
  have hmj : m ≤ j := by
    have := plainRun_le_right ((a.take i).reverse) ((b.take j).reverse)
    rw [← hmdef] at this
    simp only [List.length_reverse, List.length_take] at this
    omega
  have hseg : (a.take i).drop (i - m) = (b.take j).drop (j - m) := by
    have heq := plainRun_take_eq ((a.take i).reverse) ((b.take j).reverse)
    rw [← hmdef] at heq
    rw [List.take_reverse, List.take_reverse] at heq
    have hla : (a.take i).length - m = i - m := by
      simp [List.length_take]
      omega
    have hlb : (b.take j).length - m = j - m := by
      simp [List.length_take]
      omega
    rw [hla, hlb] at heq
    exact List.reverse_injective heq
  have hlenA : ((a.take i).drop (i - m)).length = m := by
    simp only [List.length_drop, List.length_take]
    omega
  have hlenB : ((b.take j).drop (j - m)).length = m := by
    simp only [List.length_drop, List.length_take]
    omega
  have hdecA : a.drop (i - m) = (a.take i).drop (i - m) ++ a.drop i := by
    conv_lhs => rw [← List.take_append_drop i a]
    rw [List.drop_append_of_le_length (by simp [List.length_take]; omega)]
  have hdecB : b.drop (j - m) = (b.take j).drop (j - m) ++ b.drop j := by
    conv_lhs => rw [← List.take_append_drop j b]
    rw [List.drop_append_of_le_length (by simp [List.length_take]; omega)]
  have htakeA : (a.drop (i - m)).take (k + m)
      = (a.take i).drop (i - m) ++ (a.drop i).take k := by
    have ht := @List.take_append Char ((a.take i).drop (i - m)) (a.drop i) k
    rw [hlenA] at ht
    rw [hdecA, Nat.add_comm k m]
    exact ht
  have htakeB : (b.drop (j - m)).take (k + m)
      = (b.take j).drop (j - m) ++ (b.drop j).take k := by
    have ht := @List.take_append Char ((b.take j).drop (j - m)) (b.drop j) k
    rw [hlenB] at ht
    rw [hdecB, Nat.add_comm k m]
    exact ht
  rw [hext]
  refine ⟨⟨?_, ?_, ?_⟩, ?_⟩
  · show i - m + (k + m) ≤ a.length
    omega
  · show j - m + (k + m) ≤ b.length
    omega
  · show (a.drop (i - m)).take (k + m) = (b.drop (j - m)).take (k + m)
    rw [htakeA, htakeB, hseg, h3]
  · show k ≤ k + m
    omega

theorem extendRight_spec (a b : List Char) (i j k : Nat) (h : ValidBlock a b (i, j, k)) :
    ValidBlock a b (extendRight a b (i, j, k)) ∧
    extendRight a b (i, j, k)
      = (i, j, k + plainRun (a.drop (i + k)) (b.drop (j + k))) ∧
    plainRun (a.drop (i + (extendRight a b (i, j, k)).2.2))
      (b.drop (j + (extendRight a b (i, j, k)).2.2)) = 0 := by
  have h1 : i + k ≤ a.length := h.1
  have h2 : j + k ≤ b.length := h.2.1
  have h3 : (a.drop i).take k = (b.drop j).take k := h.2.2
  set r := plainRun (a.drop (i + k)) (b.drop (j + k)) with hrdef
  have hext : extendRight a b (i, j, k) = (i, j, k + r) := rfl
  have hra : r ≤ a.length - (i + k) := by
    have := plainRun_le_left (a.drop (i + k)) (b.drop (j + k))
    rw [← hrdef] at this
    simpa [List.length_drop] using this
  have hrb : r ≤ b.length - (j + k) := by
    have := plainRun_le_right (a.drop (i + k)) (b.drop (j + k))
    rw [← hrdef] at this
    simpa [List.length_drop] using this
  refine ⟨⟨?_, ?_, ?_⟩, hext, ?_⟩
  · show i + (k + r) ≤ a.length
    omega
  · show j + (k + r) ≤ b.length
    omega
  · show (a.drop i).take (k + r) = (b.drop j).take (k + r)
    rw [List.take_add, List.take_add, List.drop_drop, List.drop_drop, h3]
    congr 1
    exact plainRun_take_eq _ _
  · rw [hext]
    show plainRun (a.drop (i + (k + r))) (b.drop (j + (k + r))) = 0
    have := plainRun_stop (a.drop (i + k)) (b.drop (j + k))
    rw [← hrdef, List.drop_drop, List.drop_drop] at this
    have ha : i + k + r = i + (k + r) := by omega
    have hb : j + k + r = j + (k + r) := by omega
    rwa [ha, hb] at this

/-! ### Characterization of a match reported at position `(0, 0)` -/

theorem findLongestMatch_at_zero (a b : List Char) (k : Nat)
    (h : findLongestMatch a b = (0, 0, k)) :
    a.take k = b.take k ∧ plainRun a b = k ∧ (coreBest a b (isPopular b)).2.2 ≤ k := by
  rcases hcore : coreBest a b (isPopular b) with ⟨i0, j0, k0⟩
  have hv0 : ValidBlock a b (i0, j0, k0) := hcore ▸ coreBest_valid a b (isPopular b)
  obtain ⟨hvL, hgeL⟩ := extendLeft_spec a b i0 j0 k0 hv0
  rcases hL : extendLeft a b (i0, j0, k0) with ⟨i1, j1, k1⟩
  rw [hL] at hvL hgeL
  obtain ⟨hvR, hReq, hstop⟩ := extendRight_spec a b i1 j1 k1 hvL
  have hflm : findLongestMatch a b = extendRight a b (i1, j1, k1) := by
    unfold findLongestMatch
    rw [hcore, hL]
  rw [hflm] at h
  rw [h] at hvR hstop
  rw [hReq] at h
  have hi1 : i1 = 0 := (Prod.mk.injEq _ _ _ _ |>.mp h).1
  have hrest := (Prod.mk.injEq _ _ _ _ |>.mp h).2
  have hj1 : j1 = 0 := (Prod.mk.injEq _ _ _ _ |>.mp hrest).1
  have hk : k1 + plainRun (a.drop (i1 + k1)) (b.drop (j1 + k1)) = k :=
    (Prod.mk.injEq _ _ _ _ |>.mp hrest).2
  have hka : k ≤ a.length := by
    have := hvR.1
    simp only at this
    omega
  have hkb : k ≤ b.length := by
    have := hvR.2.1
    simp only at this
    omega
  have htk : a.take k = b.take k := by
    have := hvR.2.2
    simpa using this
  have hstop' : plainRun (a.drop k) (b.drop k) = 0 := by
    rw [hi1, hj1] at hstop
    simpa using hstop
  refine ⟨htk, ?_, ?_⟩
  · rw [plainRun_add_of_take_eq k a b hka hkb htk, hstop']
    omega
  · show k0 ≤ k
    have hk0 : k0 ≤ k1 := hgeL
    omega

/-! ### With autojunk disabled the reported block is a longest common substring -/

theorem popularChars_eq_nil (b : List Char) (h : b.length < 200) : popularChars b = [] := by
  unfold popularChars
  rw [if_pos h]

theorem isPopular_eq_false (b : List Char) (h : popularChars b = []) :
    isPopular b = fun _ => false := by
  funext c
  unfold isPopular
  rw [h]
  rfl

theorem lcsLen_le_core (a b : List Char) :
    lcsLen a b ≤ (coreBest a b (fun _ => false)).2.2 :=
  lcsLen_le_of a b (fun i j => coreBest_max a b (fun _ => false) i j)

theorem findLongestMatch_zero_lcs (a b : List Char) (k : Nat)
    (hb : b.length < 200) (h : findLongestMatch a b = (0, 0, k)) :
    plainRun a b = lcsLen a b := by
  obtain ⟨_, hpr, hcore⟩ := findLongestMatch_at_zero a b k h
  rw [isPopular_eq_false b (popularChars_eq_nil b hb)] at hcore
  have hle : lcsLen a b ≤ k := Nat.le_trans (lcsLen_le_core a b) hcore
  have hge : plainRun a b ≤ lcsLen a b := plainRun_le_lcsLen a b
  omega

/-! ### The rename lint: firing conditions -/

/-- C3 (amended): `_lint_command_rename` fires only if the command has
exactly 3 whitespace tokens, the first token is `mv` or `cp`, the block
selected by `difflib.SequenceMatcher.find_longest_match` starts at
position 0 in both path arguments (so the block is a common prefix of
both), and the rewritten `prefix{rest1,rest2}` command has length at most
80% of the original command.  Whenever the second argument is shorter
than 200 characters (difflib's autojunk threshold), the selected block is
moreover a longest common contiguous substring, i.e. the claim's original
"longest common substring starts at position 0 in both arguments"
formulation holds; for a second argument of 200 characters or more,
autojunk can select a non-maximal block (see the counterexample). -/
theorem lintCommandRename_only_if (cmd : String) (h : lintCommandRename cmd.data = true) :
    ∃ t0 a1 a2 k, pySplitL cmd.data = [t0, a1, a2] ∧
      (t0 = "mv".data ∨ t0 = "cp".data) ∧
      findLongestMatch a1 a2 = (0, 0, k) ∧
      a1.take k = a2.take k ∧
      5 * (renameNewCmd a1 a2 (0, 0, k)).length ≤ 4 * cmd.data.length ∧
      (a2.length < 200 → plainRun a1 a2 = lcsLen a1 a2) := by
  unfold lintCommandRename at h
  split at h
  case h_2 => exact absurd h (by simp)
  case h_1 t0 a1 a2 heq =>
    split at h
    case isFalse => exact absurd h (by simp)
    case isTrue hmv =>
      split at h
      case isFalse => exact absurd h (by simp)
      case isTrue hzero =>
        rcases hfm : findLongestMatch a1 a2 with ⟨x, y, z⟩
        rw [hfm] at hzero h
        have hx : x = 0 := by simpa using (Bool.and_eq_true _ _ |>.mp hzero).1
        have hy : y = 0 := by simpa using (Bool.and_eq_true _ _ |>.mp hzero).2
        subst hx
        subst hy
        refine ⟨t0, a1, a2, z, heq, by simpa using hmv, hfm, ?_, ?_, ?_⟩
        · exact (findLongestMatch_at_zero a1 a2 z hfm).1
        · exact of_decide_eq_true h
        · intro hlen
          exact findLongestMatch_zero_lcs a1 a2 z hlen hfm

/-! ### Tokens of `str.split()` and the split/join round trip -/

theorem pySplitAux_tokens :
    ∀ (l acc : List Char), (∀ c ∈ acc, pyIsSpace c = false) →
      ∀ t ∈ pySplitAux l acc, t ≠ [] ∧ ∀ c ∈ t, pyIsSpace c = false
  | [], acc, hacc, t, ht => by
    simp only [pySplitAux] at ht
    split at ht
    · simp at ht
    · next hne =>
      rw [List.mem_singleton] at ht
      subst ht
      refine ⟨by simpa using fun h => hne (by simp [h]), ?_⟩
      intro c hc
      exact hacc c (List.mem_reverse.mp hc)
  | a :: l, acc, hacc, t, ht => by
    simp only [pySplitAux] at ht
    split at ht
    · split at ht
      · exact pySplitAux_tokens l [] (by simp) t ht
      · next hne =>
        rcases List.mem_cons.mp ht with h | h
        · subst h
          refine ⟨by simpa using fun h => hne (by simp [h]), ?_⟩
          intro c hc
          exact hacc c (List.mem_reverse.mp hc)
        · exact pySplitAux_tokens l [] (by simp) t h
    · next hns =>
      refine pySplitAux_tokens l (a :: acc) ?_ t ht
      intro c hc
      rcases List.mem_cons.mp hc with h | h
      · subst h
        simpa using hns
      · exact hacc c h

theorem pySplitL_tokens (l : List Char) :
    ∀ t ∈ pySplitL l, t ≠ [] ∧ ∀ c ∈ t, pyIsSpace c = false :=
  pySplitAux_tokens l [] (by simp)

theorem pySplitAux_consume_token :
    ∀ (t rest acc : List Char), (∀ c ∈ t, pyIsSpace c = false) →
      pySplitAux (t ++ rest) acc = pySplitAux rest (t.reverse ++ acc)
  | [], rest, acc, _ => by simp
  | c :: t, rest, acc, h => by
    have hc : pyIsSpace c = false := h c (by simp)
    simp only [List.cons_append, pySplitAux, hc, Bool.false_eq_true, if_false]
    show pySplitAux (t ++ rest) (c :: acc) = _
    rw [pySplitAux_consume_token t rest (c :: acc) (fun d hd => h d (by simp [hd]))]
    simp

theorem pySplitL_joinSpace :
    ∀ (ts : List (List Char)),
      (∀ t ∈ ts, t ≠ [] ∧ ∀ c ∈ t, pyIsSpace c = false) →
      pySplitL (joinSpace ts) = ts
  | [], _ => rfl
  | [t], h => by
    obtain ⟨hne, hns⟩ := h t (by simp)
    show pySplitAux (joinSpace [t]) [] = [t]
    have : joinSpace [t] = t ++ [] := by simp [joinSpace]
    rw [this, pySplitAux_consume_token t [] [] hns]
    simp only [pySplitAux, List.append_nil]
    rw [if_neg (by simpa using fun hh => hne (by simpa using hh))]
    simp
  | t :: t2 :: ts, h => by
    obtain ⟨hne, hns⟩ := h t (by simp)
    show pySplitAux (joinSpace (t :: t2 :: ts)) [] = t :: t2 :: ts
    have hj : joinSpace (t :: t2 :: ts) = t ++ ' ' :: joinSpace (t2 :: ts) := rfl
    rw [hj, pySplitAux_consume_token t (' ' :: joinSpace (t2 :: ts)) [] hns]
    simp only [pySplitAux, List.append_nil]
    rw [if_pos (by decide)]
    rw [if_neg (by simpa using fun hh => hne (by simpa using hh))]
    rw [List.reverse_reverse]
    have := pySplitL_joinSpace (t2 :: ts) (fun u hu => h u (by simp [hu]))
    rw [show pySplitAux (joinSpace (t2 :: ts)) [] = pySplitL (joinSpace (t2 :: ts)) from rfl,
      this]

theorem standardizeL_idem (l : List Char) : standardizeL (standardizeL l) = standardizeL l := by
  unfold standardizeL
  rw [pySplitL_joinSpace (pySplitL l) (pySplitL_tokens l)]

/-! ### Properties of the shellcheck dedup loop -/

theorem seenUnion_mem_left {c : String} :
    ∀ (ns seen : List String), c ∈ seen → c ∈ seenUnion seen ns
  | [], _, h => h
  | x :: ns, seen, h => by
    unfold seenUnion
    simp only [List.foldl_cons]
    split
    · exact seenUnion_mem_left ns seen h
    · exact seenUnion_mem_left ns (seen ++ [x]) (List.mem_append_left _ h)

theorem scProcess_sublist :
    ∀ (topN : Nat) (seen ps : List String), ((scProcess topN seen ps).1).Sublist ps
  | _, _, [] => List.Sublist.refl []
  | topN, seen, p :: ps => by
    simp only [scProcess]
    split
    · exact (scProcess_sublist topN seen ps).cons p
    · exact (scProcess_sublist topN _ ps).cons₂ p

theorem scProcess_seen_mono :
    ∀ (topN : Nat) (seen ps : List String) (c : String),
      c ∈ seen → c ∈ (scProcess topN seen ps).2
  | _, _, [], _, h => h
  | topN, seen, p :: ps, c, h => by
    simp only [scProcess]
    split
    · exact scProcess_seen_mono topN seen ps c h
    · exact scProcess_seen_mono topN _ ps c (seenUnion_mem_left _ seen h)

theorem scProcess_suppress (topN : Nat) (seen : List String) (p : String) (ps : List String)
    (h : ∀ c ∈ scanCodes p.data, seen.contains c = true) :
    scProcess topN seen (p :: ps) = scProcess topN seen ps := by
  have hfilter : (scanCodes p.data).filter (fun c => !seen.contains c) = [] := by
    rw [List.filter_eq_nil_iff]
    intro c hc
    have hmem : c ∈ seen := List.elem_iff.mp (h c hc)
    simp [hmem]
  simp only [scProcess]
  rw [hfilter]
  simp

theorem scProcess_print (topN : Nat) (seen : List String) (p : String) (ps : List String)
    (htop : 0 < topN) (h : ∃ c ∈ scanCodes p.data, seen.contains c = false) :
    (scProcess topN seen (p :: ps)).1 =
      p :: (scProcess topN (seenUnion seen
        (((scanCodes p.data).filter (fun c => !seen.contains c)).take topN)) ps).1 := by
  obtain ⟨c, hc, hcs⟩ := h
  have hf : c ∈ (scanCodes p.data).filter (fun c => !seen.contains c) :=
    List.mem_filter.mpr ⟨hc, by simpa using hcs⟩
  have hne : (((scanCodes p.data).filter (fun c => !seen.contains c)).take topN).isEmpty
      = false := by
    cases hfl : (scanCodes p.data).filter (fun c => !seen.contains c) with
    | nil => rw [hfl] at hf; simp at hf
    | cons x xs =>
      cases topN with
      | zero => omega
      | succ n => simp [List.take]
  simp only [scProcess, hne, Bool.false_eq_true, if_false]

/-! ### Claim theorems -/

/-- C1: the claim says that for the empty Command Sequence the Favorites and
Top-with-arguments reports print a "no data" indication and all aggregate
divisions are guarded.  The code does neither: `report_favorites` prints
only its header (no stats rows, no "no data" line, modelled as `some []`),
and `report_commands_with_arguments` evaluates
`sum(...) / len(commands)` with `len(commands) = 0`, raising
`ZeroDivisionError` (modelled as `none`), for every environment, alias dump
and shell. -/
theorem empty_history_behavior :
    reportFavorites [] = some [] ∧
    ∀ (env : Env) (aliasDump : List Char) (shell : String),
      reportCommandsWithArguments env aliasDump shell [] = none :=
  ⟨rfl, fun _ _ _ => rfl⟩

/-- C2: whenever `_history_file`'s path resolution (explicit argument, then
truthy `HISTFILE` joined to home, then the bash default, then the generic
fallback) yields a path that is not a file, the program prints exactly one
warning line and exits with status 1. -/
theorem historyFile_missing_exits (cfg : Cfg) (p : String)
    (hres : resolveHistoryPath cfg = some p) (hmiss : cfg.isFile p = false) :
    historyFile cfg = .exited [missingWarning p] 1 := by
  unfold historyFile
  rw [hres]
  simp [hmiss]

/-- Witness for C2 at a concrete configuration. -/
theorem historyFile_missing_exits_witness :
    resolveHistoryPath c2cfg = some "/nope" ∧ c2cfg.isFile "/nope" = false ∧
    historyFile c2cfg = .exited [missingWarning "/nope"] 1 :=
  ⟨rfl, rfl, historyFile_missing_exits c2cfg "/nope" rfl rfl⟩

/-- C7: the claim says malformed numeric environment values are treated as 0
and one section's failure never stops the others.  The code instead calls
`int()` on the raw value: with `HISTSIZE=abc` (resp. `HISTFILESIZE=12a`)
`_lint_histsize` (resp. `_lint_bash_histfilesize`) raises an uncaught
`ValueError` (modelled as `none`), which aborts the whole environment
report and the rest of the run. -/
theorem malformed_size_env_crashes :
    lintHistsize c7env = none ∧ lintBashHistfilesize c7envB "bash" = none :=
  ⟨rfl, rfl⟩

/-- C9: `_standardize` (whitespace normalization) is idempotent. -/
theorem standardize_idempotent (x : String) :
    standardize (standardize x) = standardize x := by
  show String.mk (standardizeL (standardizeL x.data)) = String.mk (standardizeL x.data)
  rw [standardizeL_idem]

/-- C5: `_lint_command_alias` fires iff the command is not a substring of
the dumped alias list, occurs at least twice, has `total/count ≤ 20`, and
contains a space; in particular it never fires for a command with no space,
a command occurring once, or one contained in the alias dump. -/
theorem lintCommandAlias_iff (aliasDump cmd : List Char) (count total : Nat) :
    lintCommandAlias aliasDump cmd count total = true ↔
      isSubstr cmd aliasDump = false ∧ 2 ≤ count ∧ total ≤ 20 * count ∧
        charIn ' ' cmd = true := by
  by_cases hcnt : count < 2 <;> by_cases hdiv : 20 * count < total <;>
    cases hS : isSubstr cmd aliasDump <;> cases hC : charIn ' ' cmd <;>
    (simp [lintCommandAlias, hS, hC, hcnt, hdiv]; try omega)

/-- C6: `_lint_command_cd_home` fires iff the whitespace-normalized command
is exactly `cd ~`, `cd ~/` or `cd $HOME`. -/
theorem lintCommandCdHome_iff (cmd : String) :
    lintCommandCdHome cmd.data = true ↔
      (standardize cmd = "cd ~" ∨ standardize cmd = "cd ~/" ∨
        standardize cmd = "cd $HOME") := by
  have hmk : ∀ (l : List Char) (s : String), String.mk l = s ↔ l = s.data := by
    intro l s
    constructor
    · intro h
      rw [← h]
    · intro h
      rw [h]
  unfold lintCommandCdHome standardize
  simp only [Bool.or_eq_true, decide_eq_true_eq, hmk, or_assoc]

/-- C10: `_is_in_histignore` holds iff the standardized command equals one
of the colon-separated entries of `HISTIGNORE` (plain string equality, no
glob matching); with `HISTIGNORE` unset the entry list is `[""]`, so only
the empty normalized command matches. -/
theorem isInHistignore_spec :
    (∀ (env : Env) (cmd : String), isInHistignore env cmd = true ↔
      standardizeL cmd.data ∈ pySplitSep ':' (envGet env "HISTIGNORE" "").data) ∧
    (∀ (env : Env) (cmd : String), envGetOpt env "HISTIGNORE" = none →
      (isInHistignore env cmd = true ↔ standardizeL cmd.data = [])) := by
  have hmem : ∀ (env : Env) (cmd : String), isInHistignore env cmd = true ↔
      standardizeL cmd.data ∈ pySplitSep ':' (envGet env "HISTIGNORE" "").data := by
    intro env cmd
    unfold isInHistignore
    exact List.elem_iff
  refine ⟨hmem, fun env cmd hnone => ?_⟩
  rw [hmem env cmd]
  unfold envGet
  unfold envGetOpt at hnone
  rw [hnone]
  simp [pySplitSep]

/-- Witness for C10's unset case at a concrete environment and command. -/
theorem isInHistignore_spec_witness :
    isInHistignore (fun _ => none) "   " = true ↔ standardizeL ("   " : String).data = [] :=
  isInHistignore_spec.2 (fun _ => none) "   " rfl

/-- Witness for C3 at the spec's own example command
`mv foo.tar.gz foo.tar.gz.bak`. -/
theorem lintCommandRename_only_if_witness :
    ∃ t0 a1 a2 k, pySplitL ("mv foo.tar.gz foo.tar.gz.bak" : String).data = [t0, a1, a2] ∧
      (t0 = "mv".data ∨ t0 = "cp".data) ∧
      findLongestMatch a1 a2 = (0, 0, k) ∧
      a1.take k = a2.take k ∧
      5 * (renameNewCmd a1 a2 (0, 0, k)).length
        ≤ 4 * ("mv foo.tar.gz foo.tar.gz.bak" : String).data.length ∧
      (a2.length < 200 → plainRun a1 a2 = lcsLen a1 a2) :=
  lintCommandRename_only_if "mv foo.tar.gz foo.tar.gz.bak" (by decide)

/-- C3 counterexample to the original claim: for
`mv ppp...p#zz...z ppp...p!zz...zff...f` (second argument exactly 200
characters, so autojunk junks the popular characters `p`, `z`, `f`), the
lint fires with the matcher block being the 68-character `p...p` prefix,
yet the longest common contiguous substring is the 69-character `z`-run,
which does not start at position 0 of the arguments: no longest common
substring is a common prefix (`plainRun`, the common-prefix run, differs
from `lcsLen`). -/
theorem lintCommandRename_lcs_counterexample :
    lintCommandRename c3cmd = true ∧
    pySplitL c3cmd = ["mv".data, c3arg1, c3arg2] ∧
    plainRun c3arg1 c3arg2 = 68 ∧
    plainRun c3arg1 c3arg2 ≠ lcsLen c3arg1 c3arg2 := by
  have h69 : (69 : Nat) ≤ lcsLen c3arg1 c3arg2 := by
    have h := lcsLen_ge c3arg1 c3arg2 (i := 69) (j := 69) (by decide) (by decide)
    rw [show plainRun (c3arg1.drop 69) (c3arg2.drop 69) = 69 from by decide] at h
    exact h
  have h68 : plainRun c3arg1 c3arg2 = 68 := by decide
  refine ⟨by decide, by decide, h68, ?_⟩
  omega

/-- C4 (amended): properties of the shellcheck deduplication loop.  The
printed paragraphs form a subsequence of the input (suppression only);
the seen set only grows; a paragraph all of whose codes are already seen
is suppressed (so a code never counts again once seen); and a paragraph
with at least one unseen code is printed, marking exactly the first
`topN` unseen codes of that paragraph (not all of its codes) as seen.
There is no global cap across paragraphs. -/
theorem shellcheck_dedup_amended :
    (∀ (topN : Nat) (seen ps : List String), ((scProcess topN seen ps).1).Sublist ps) ∧
    (∀ (topN : Nat) (seen ps : List String) (c : String),
      c ∈ seen → c ∈ (scProcess topN seen ps).2) ∧
    (∀ (topN : Nat) (seen : List String) (p : String) (ps : List String),
      (∀ c ∈ scanCodes p.data, seen.contains c = true) →
      scProcess topN seen (p :: ps) = scProcess topN seen ps) ∧
    (∀ (topN : Nat) (seen : List String) (p : String) (ps : List String),
      0 < topN → (∃ c ∈ scanCodes p.data, seen.contains c = false) →
      (scProcess topN seen (p :: ps)).1 =
        p :: (scProcess topN (seenUnion seen
          (((scanCodes p.data).filter (fun c => !seen.contains c)).take topN)) ps).1) :=
  ⟨scProcess_sublist, scProcess_seen_mono, scProcess_suppress, scProcess_print⟩

/-- Witness for C4 at concrete paragraph lists. -/
theorem shellcheck_dedup_amended_witness :
    scProcess 10 ["2086"] ["SC2086: x", "SC2086: y"] = scProcess 10 ["2086"] ["SC2086: y"] ∧
    (scProcess 10 [] ["SC2116: y"]).1 = "SC2116: y" :: (scProcess 10 (seenUnion []
      (((scanCodes ("SC2116: y" : String).data).filter
        (fun c => !List.contains ([] : List String) c)).take 10)) []).1 :=
  ⟨shellcheck_dedup_amended.2.2.1 10 ["2086"] "SC2086: x" ["SC2086: y"] (by decide),
   shellcheck_dedup_amended.2.2.2 10 [] "SC2116: y" [] (by decide)
     ⟨"2116", by decide, by decide⟩⟩

/-- C4 counterexample to the original claim: paragraph `c4para1` carries 11
distinct new codes; it is printed, but only its first 10 new codes are
marked seen — code `3011` is not — so paragraph `c4para2`, which contains
only the already-printed code `3011`, is printed rather than suppressed. -/
theorem shellcheck_dedup_counterexample :
    (scProcess 10 [] [c4para1, c4para2]).1 = [c4para1, c4para2] ∧
    "3011" ∈ scanCodes c4para1.data ∧
    "3011" ∉ (scProcess 10 [] [c4para1]).2 ∧
    (∀ c ∈ scanCodes c4para2.data, c = "3011") := by
  refine ⟨by decide, by decide, by decide, by decide⟩

/-- C8 counterexample to the original claim: for the indented comment line
`"  #foo"`, the code keeps the line (its raw text does not start with
`#`) and returns its trimmed text `"#foo"`, which does start with the
comment marker; the claim's reading (filter on the trimmed line) would
drop it. -/
theorem loadHistory_counterexample :
    loadHistory ["  #foo"] = ["#foo"] ∧
    loadHistorySpec ["  #foo"] = [] ∧
    pyStartsWith (pyStrip "  #foo").data ['#'] = true := by
  refine ⟨by decide, by decide, by decide⟩

/-- C8 (amended): the loader keeps exactly the raw lines whose trimmed text
is non-empty and whose *raw* text does not start with `#`, and returns
their trimmed texts; order and duplicates are preserved (the result is a
subsequence of the trimmed lines), and every returned command is
non-empty. -/
theorem loadHistory_amended (lines : List String) :
    loadHistory lines = (lines.filter (fun l =>
      !(pyStrip l).data.isEmpty && !pyStartsWith l.data ['#'])).map pyStrip ∧
    (loadHistory lines).Sublist (lines.map pyStrip) ∧
    (loadHistory lines).all (fun s => !s.data.isEmpty) = true := by
  refine ⟨rfl, ?_, ?_⟩
  · exact List.Sublist.map pyStrip (List.filter_sublist lines)
  · rw [List.all_eq_true]
    intro s hs
    unfold loadHistory at hs
    obtain ⟨l, hl, hsl⟩ := List.mem_map.mp hs
    have hkeep := (List.mem_filter.mp hl).2
    have hne : (pyStrip l).data.isEmpty = false := by
      rcases Bool.and_eq_true _ _ |>.mp hkeep with ⟨h1, _⟩
      simpa using h1
    rw [← hsl]
    simp [hne]

end CommandLineLint
